import Mathlib

/-
Verification development for the CSS style-processing core of the Positron
repository (src/Style.py).  The Python code is shallowly embedded: dicts
become association lists with insertion-order update semantics, Python
exceptions become an explicit error monad `M`, and Python floats are
modelled as exact rationals (the claims under study only involve exact
decimal values and comparisons).  Tables that live in modules missing from
src/ (config.py, util.py, own_types.py, the pygame color table) are
modelled from the spec and marked as such in their doc comments.
-/

namespace Positron

/-- Python exception classes that the embedded code can raise.  An
`assertionError` carries the optional message of the `assert` statement
(`none` for a bare `assert`). -/
inductive Exc
  | valueError
  | typeError
  | keyError
  | attributeError
  | assertionError (msg : Option String)
  | indexError
deriving DecidableEq, Repr

deriving instance DecidableEq for Except

/-- The effect monad of the embedding: a computation either returns a value
or raises a Python exception. -/
abbrev M (α : Type) := Except Exc α

/-- Python dict embedded as an association list; insertion order is the
list order, updates replace in place (as CPython dicts do). -/
abbrev Dict (α : Type) := List (String × α)

/-- First-occurrence lookup (Python `d[k]` / `d.get(k)` on a well-formed
dict; dicts built by `dSet` from `[]` never hold duplicate keys). -/
def dGet? {α : Type} : Dict α → String → Option α
  | [], _ => none
  | (k', v) :: rest, k => if k' = k then some v else dGet? rest k

/-- Python `d[k] = v`: replace in place if the key exists, else append. -/
def dSet {α : Type} : Dict α → String → α → Dict α
  | [], k, v => [(k, v)]
  | (k', v') :: rest, k, v =>
      if k' = k then (k', v) :: rest else (k', v') :: dSet rest k v

/-- Python `d.update(m)` (also `d | m` and `{**d, **m}`): fold the updates
of `m` into `d` in order. -/
def dUpdateList {α : Type} (d m : Dict α) : Dict α :=
  m.foldl (fun acc kv => dSet acc kv.1 kv.2) d

/-- Python `k in d`. -/
def dMem {α : Type} (d : Dict α) (k : String) : Bool :=
  (dGet? d k).isSome

/-- Python `d.keys()` in iteration order. -/
def dKeys {α : Type} (d : Dict α) : List String :=
  d.map Prod.fst

/-- Left-biased choice on options (used to state lookup lemmas with a
single head symbol). -/
def optOr {α : Type} (o fb : Option α) : Option α :=
  match o with
  | some v => some v
  | none => fb

/-- Last-occurrence lookup; coincides with `dGet?` on duplicate-free lists
and describes what folding `dSet` over a raw list produces. -/
def dGetLast? {α : Type} : Dict α → String → Option α
  | [], _ => none
  | (k', v) :: rest, k =>
      optOr (dGetLast? rest k) (if k' = k then some v else none)

/-- Python `\s` whitespace test used by `re.match(r"\s", c)` and
`str.split()` / `str.strip()`. -/
def pyIsSpace (c : Char) : Bool :=
  c = ' ' || c = '\t' || c = '\n' || c = '\r' || c = '\x0b' || c = '\x0c'

/-- RGBA color with byte channels (pygame `Color`). -/
structure Color where
  r : ℕ
  g : ℕ
  b : ℕ
  a : ℕ
deriving DecidableEq, Repr

/-- Computed CSS value (own_types.CompValue): number, symbolic percentage,
color, plain/keyword string, the `Auto`/`Normal` sentinels, or a font
style. -/
inductive CompValue
  | num (n : ℚ)
  | perc (n : ℚ)
  | col (c : Color)
  | str (s : String)
  | auto
  | normal
  | fstyle (style : String) (angle : Option ℚ)
deriving DecidableEq, Repr

/-- A (parent) computed style: property name to computed value. -/
abbrev PStyle := Dict CompValue

/-- The global configuration read by the acceptors (config.g): viewport
size, the root element's computed font size (`none` when no root is set,
in which case reading it raises `KeyError`), and the default font size. -/
structure Env where
  W : ℚ
  H : ℚ
  rootFontSize : Option ℚ
  defaultFontSize : ℚ
deriving DecidableEq, Repr

/-- Python `p_style[key]`: `KeyError` when absent. -/
def pyGet (p : PStyle) (k : String) : M CompValue :=
  match dGet? p k with
  | none => Except.error Exc.keyError
  | some v => Except.ok v

/-- Python `p_style[key]` used as a number (`float` annotation in the
source): `KeyError` when absent, `TypeError` when the stored computed
value is not numeric. -/
def pyGetNum (p : PStyle) (k : String) : M ℚ :=
  match dGet? p k with
  | none => Except.error Exc.keyError
  | some (CompValue.num n) => Except.ok n
  | some _ => Except.error Exc.typeError

/-- Numeric value of a digit string. -/
def digitsVal (cs : List Char) : ℕ :=
  cs.foldl (fun a c => a * 10 + (c.toNat - 48)) 0

/-- Modelled from the spec: util.dec_re, the decimal-number regex used to
split dimensions; greedy match of `[+-]?(\d+(\.\d*)?|\.\d+)` returning the
parsed value and the unmatched suffix. -/
def decParse (cs : List Char) : Option (ℚ × List Char) :=
  let signed : Bool × List Char :=
    match cs with
    | '+' :: t => (false, t)
    | '-' :: t => (true, t)
    | _ => (false, cs)
  let neg := signed.1
  let cs1 := signed.2
  let ip := cs1.takeWhile Char.isDigit
  let cs2 := cs1.dropWhile Char.isDigit
  match cs2 with
  | '.' :: t =>
      let fp := t.takeWhile Char.isDigit
      let cs3 := t.dropWhile Char.isDigit
      if ip.isEmpty && fp.isEmpty then none
      else
        let v : ℚ := (digitsVal ip : ℚ) + (digitsVal fp : ℚ) / ((10 : ℚ) ^ fp.length)
        some (if neg then -v else v, cs3)
  | _ =>
      if ip.isEmpty then none
      else some (if neg then -(digitsVal ip : ℚ) else (digitsVal ip : ℚ), cs2)

/-- Python `str.strip()` as a character list. -/
def pyStrip (s : String) : List Char :=
  ((s.toList.dropWhile pyIsSpace).reverse.dropWhile pyIsSpace).reverse

/-- Modelled from the spec: Python `float(...)` on the decimal literals the
style code feeds it (whole-string decimal number, surrounding whitespace
allowed); `none` models the `ValueError`. -/
def pyFloat? (s : String) : Option ℚ :=
  match decParse (pyStrip s) with
  | some (n, []) => some n
  | _ => none

/-- Python `\w` word character (ASCII model). -/
def isWordChar (c : Char) : Bool :=
  c.isAlpha || c.isDigit || c = '_'

/-- Style.split_units: full match of `({dec_re})(\w*|%)` against the
stripped input, returning number and unit; no match raises
`AttributeError` (from `match.groups()` on `None`). -/
def split_units (attr : String) : M (ℚ × String) :=
  match decParse (pyStrip attr) with
  | some (num, rest) =>
      if rest.all isWordChar then Except.ok (num, String.mk rest)
      else if rest = ['%'] then Except.ok (num, "%")
      else Except.error Exc.attributeError
  | none => Except.error Exc.attributeError

/-- Modelled from the spec: config.abs_length_units, the absolute CSS
length units and their pixel multiples (96 px per inch). -/
def abs_length_units : Dict ℚ :=
  [("px", 1), ("cm", 4800/127), ("mm", 480/127), ("Q", 120/127),
   ("in", 96), ("pc", 16), ("pt", 4/3)]

/-- Style._length: convert a `(number, unit)` dimension to pixels.  A zero
number short-circuits to 0 before the unit is inspected; an unknown
non-zero unit raises `ValueError`; `em` reads the parent font size
(`KeyError` when absent), `rem` reads the root font size. -/
def _length (env : Env) (dim : ℚ × String) (p_style : PStyle) : M ℚ :=
  let num := dim.1
  let s := dim.2
  if num = 0 then Except.ok 0
  else
    match dGet? abs_length_units s with
    | some mult => Except.ok (mult * num)
    | none =>
      if s = "em" then
        (pyGetNum p_style "font-size").map (fun fs => fs * num)
      else if s = "rem" then
        match env.rootFontSize with
        | some fs => Except.ok (fs * num)
        | none => Except.error Exc.keyError
      else if s = "vw" then Except.ok (num * (1/100) * env.W)
      else if s = "vh" then Except.ok (num * (1/100) * env.H)
      else if s = "vmin" then Except.ok (num * (1/100) * min env.W env.H)
      else if s = "vmax" then Except.ok (num * (1/100) * max env.W env.H)
      else Except.error Exc.valueError

/-- Modelled from the spec: the pygame named-color table (THECOLORS) after
Style.py updates it with `canvastext` and `transparent`; a representative
subset suffices for this development. -/
def THECOLORS : Dict Color :=
  [("red", ⟨255, 0, 0, 255⟩), ("green", ⟨0, 255, 0, 255⟩),
   ("blue", ⟨0, 0, 255, 255⟩), ("black", ⟨0, 0, 0, 255⟩),
   ("white", ⟨255, 255, 255, 255⟩), ("yellow", ⟨255, 255, 0, 255⟩),
   ("orange", ⟨255, 165, 0, 255⟩), ("purple", ⟨160, 32, 240, 255⟩),
   ("gray", ⟨190, 190, 190, 255⟩), ("grey", ⟨190, 190, 190, 255⟩),
   ("cyan", ⟨0, 255, 255, 255⟩), ("magenta", ⟨255, 0, 255, 255⟩),
   ("brown", ⟨165, 42, 42, 255⟩), ("pink", ⟨255, 192, 203, 255⟩),
   ("canvastext", ⟨0, 0, 0, 255⟩), ("transparent", ⟨0, 0, 0, 0⟩)]

/-- pygame `Color(name)`: named-color lookup; `none` models the
`ValueError` on an unknown name (hex forms are not needed here). -/
def colorByName? (s : String) : Option Color :=
  dGet? THECOLORS s

/-- A channel literal is valid for pygame `Color` iff it is in 0..255;
outside that range the constructor raises `ValueError`. -/
def chanOk (i : ℤ) : Bool :=
  0 ≤ i && i ≤ 255

/-- pygame `Color(*ints)` from 3 or 4 integer channels; `none` models the
`ValueError` on bad arity or out-of-range channel. -/
def colorFromInts? (l : List ℤ) : Option Color :=
  match l with
  | [r, g, b] =>
      if chanOk r && chanOk g && chanOk b then
        some ⟨r.toNat, g.toNat, b.toNat, 255⟩
      else none
  | [r, g, b, a] =>
      if chanOk r && chanOk g && chanOk b && chanOk a then
        some ⟨r.toNat, g.toNat, b.toNat, a.toNat⟩
      else none
  | _ => none

/-- Parse `[+-]?\d+` greedily from a character list. -/
def intTokParse (cs : List Char) : Option (ℤ × List Char) :=
  let signed : ℤ × List Char :=
    match cs with
    | '+' :: t => (1, t)
    | '-' :: t => (-1, t)
    | _ => (1, cs)
  let ds := signed.2.takeWhile Char.isDigit
  let rest := signed.2.dropWhile Char.isDigit
  if ds.isEmpty then none
  else some (signed.1 * (digitsVal ds : ℤ), rest)

/-- Parse a comma-separated integer argument list followed by an optional
trailing comma and `)`; anything may follow (the source uses `re.match`,
a prefix match). -/
def rgbArgsParse : List Char → ℕ → Option (List ℤ)
  | cs, fuel =>
    match fuel with
    | 0 => none
    | fuel' + 1 =>
      match intTokParse cs with
      | none => none
      | some (i, rest) =>
        match rest with
        | ',' :: ')' :: _ => some [i]
        | ')' :: _ => some [i]
        | ',' :: more =>
            match rgbArgsParse more fuel' with
            | some is => some (i :: is)
            | none => none
        | _ => none

/-- Style.rgb_re / rgba_re: prefix match of `rgb(i,i,i[,i]?)` (3 or 4
channels) or `rgba(i,i,i,i)`, each with an optional trailing comma. -/
def rgbMatch? (s : String) : Option (List ℤ) :=
  let cs := s.toList
  match cs with
  | 'r' :: 'g' :: 'b' :: 'a' :: '(' :: rest =>
      match rgbArgsParse rest 8 with
      | some is => if is.length = 4 then some is else none
      | none => none
  | 'r' :: 'g' :: 'b' :: '(' :: rest =>
      match rgbArgsParse rest 8 with
      | some is => if is.length = 3 || is.length = 4 then some is else none
      | none => none
  | _ => none

/-- Python `''.join(value.split())`: delete every whitespace character. -/
def removeWhitespace (s : String) : String :=
  String.mk (s.toList.filter (fun c => !pyIsSpace c))

/-- Style.color: `currentcolor` reads the parent's computed `color`
(`KeyError` when absent); otherwise, with whitespace removed and
`ValueError` suppressed, an `rgb`/`rgba` functional form or a named-color
lookup; unparseable input yields `none` (Python `None`). -/
def color (value : String) (p_style : PStyle) : M (Option CompValue) :=
  if value = "currentcolor" then
    (pyGet p_style "color").map some
  else
    let v := removeWhitespace value
    match rgbMatch? v with
    | some ints => Except.ok ((colorFromInts? ints).map CompValue.col)
    | none => Except.ok ((colorByName? v).map CompValue.col)

/-- Modelled from the spec: config.abs_font_size, absolute font-size
keyword to exponent offset. -/
def abs_font_size : Dict ℤ :=
  [("xx-small", -3), ("x-small", -2), ("small", -1), ("medium", 0),
   ("large", 1), ("x-large", 2), ("xx-large", 3), ("xxx-large", 4)]

/-- Modelled from the spec: config.rel_font_size, relative font-size
keyword to exponent offset. -/
def rel_font_size : Dict ℤ :=
  [("smaller", -1), ("larger", 1)]

/-- Modelled from the spec: own_types.Percentage pre-multiplied by a
caller-supplied base: `mult * Percentage(num)` resolves to
`mult * num / 100`. -/
def percMul (mult num : ℚ) : ℚ :=
  mult * num / 100

/-- Style.length_percentage: split into number and unit; `%` yields a
symbolic Percentage (or the pre-multiplied number when a base is given),
other units go through `_length`.  Only the `AttributeError` of a failed
split is suppressed (yielding Python `None`); exceptions from `_length`
propagate. -/
def length_percentage (env : Env) (value : String) (p_style : PStyle)
    (mult : Option ℚ) : M (Option CompValue) :=
  match split_units value with
  | Except.error Exc.attributeError => Except.ok none
  | Except.error e => Except.error e
  | Except.ok (num, unit) =>
      if unit = "%" then
        match mult with
        | none => Except.ok (some (CompValue.perc num))
        | some m => Except.ok (some (CompValue.num (percMul m num)))
      else
        match _length env (num, unit) p_style with
        | Except.ok r => Except.ok (some (CompValue.num r))
        | Except.error Exc.attributeError => Except.ok none
        | Except.error e => Except.error e

/-- Style.length: `_length` of the split value, suppressing only the
`AttributeError` of a failed split. -/
def length (env : Env) (value : String) (p_style : PStyle) :
    M (Option CompValue) :=
  match split_units value with
  | Except.error Exc.attributeError => Except.ok none
  | Except.error e => Except.error e
  | Except.ok d =>
      match _length env d p_style with
      | Except.ok r => Except.ok (some (CompValue.num r))
      | Except.error Exc.attributeError => Except.ok none
      | Except.error e => Except.error e

/-- Style.font_size: absolute keywords scale the default font size by
powers of 1.2 (modelled as the exact rational 6/5); relative keywords
scale the parent font size; otherwise delegate to `length_percentage`
with the parent font size as the percentage base. -/
def font_size (env : Env) (value : String) (p_style : PStyle) :
    M (Option CompValue) :=
  match dGet? abs_font_size value with
  | some off => Except.ok (some (CompValue.num (env.defaultFontSize * (6/5 : ℚ) ^ off)))
  | none =>
      match pyGetNum p_style "font-size" with
      | Except.error e => Except.error e
      | Except.ok p_size =>
          match dGet? rel_font_size value with
          | some off => Except.ok (some (CompValue.num (p_size * (6/5 : ℚ) ^ off)))
          | none => length_percentage env value p_style (some p_size)

/-- Style.font_weight: reads the parent weight first (`KeyError` when
absent); `lighter`/`bolder` step through the fixed thresholds of the
source (`lighter` above 1000 raises `ValueError`); otherwise a numeric
literal in (0, 1000] is accepted as-is and anything else yields `none`
(the `float` conversion's `ValueError` is suppressed). -/
def font_weight (value : String) (p_style : PStyle) : M (Option CompValue) :=
  match pyGetNum p_style "font-weight" with
  | Except.error e => Except.error e
  | Except.ok p_size =>
      if value = "lighter" then
        if p_size < 100 then Except.ok (some (CompValue.num p_size))
        else if p_size < 550 then Except.ok (some (CompValue.num 100))
        else if p_size < 700 then Except.ok (some (CompValue.num 400))
        else if p_size ≤ 1000 then Except.ok (some (CompValue.num 700))
        else Except.error Exc.valueError
      else if value = "bolder" then
        if p_size < 350 then Except.ok (some (CompValue.num 400))
        else if p_size < 550 then Except.ok (some (CompValue.num 700))
        else if p_size < 900 then Except.ok (some (CompValue.num 900))
        else Except.ok (some (CompValue.num p_size))
      else
        match pyFloat? value with
        | some n =>
            if 0 < n && n ≤ 1000 then Except.ok (some (CompValue.num n))
            else Except.ok none
        | none => Except.ok none

/-- Python `str.split()`: split on whitespace runs, dropping empties. -/
def pySplitWs (s : String) : List String :=
  (s.split (fun c => pyIsSpace c)).filter (fun t => t ≠ "")

/-- Modelled from the spec: own_types.FontStyle validates a style keyword
with an optional oblique angle and raises `AssertionError` on an invalid
combination (`TypeError` on a missing argument). -/
def fontStyleMk : List String → M CompValue
  | [s] =>
      if s = "normal" || s = "italic" || s = "oblique" then
        Except.ok (CompValue.fstyle s none)
      else Except.error (Exc.assertionError none)
  | [s, a] =>
      if s = "oblique" then
        match pyFloat? (a.dropSuffix? "deg" |>.map (fun ss => ss.toString) |>.getD "") with
        | some n => Except.ok (CompValue.fstyle s (some n))
        | none => Except.error (Exc.assertionError none)
      else Except.error (Exc.assertionError none)
  | _ => Except.error Exc.typeError

/-- Style.font_style: the first two whitespace-separated tokens validated
as a FontStyle; `AssertionError` is suppressed to Python `None`. -/
def font_style (value : String) (p_style : PStyle) : M (Option CompValue) :=
  match fontStyleMk ((pySplitWs value).take 2) with
  | Except.ok v => Except.ok (some v)
  | Except.error (Exc.assertionError _) => Except.ok none
  | Except.error e => Except.error e

/-- Style.no_change: return the raw string unchanged. -/
def no_change (value : String) (p_style : PStyle) : M (Option CompValue) :=
  Except.ok (some (CompValue.str value))

/-- Modelled from the spec: util.noop, the default acceptor that accepts
nothing (keyword-only properties have no acceptor). -/
def noop (value : String) (p_style : PStyle) : M (Option CompValue) :=
  Except.ok none

/-- Acceptor signature; `Env` threads the globals the source reads from
config.g. -/
abbrev Acc := Env → String → PStyle → M (Option CompValue)

/-- Style.StyleAttr: initial raw value, keyword table, acceptor and
inheritance flag.  The `inherits` default of the source constructor
("true unless the acceptor is length_percentage") is resolved per entry
below. -/
structure StyleAttr where
  initial : String
  kws : Dict CompValue
  accept : Acc
  inherits : Bool

/-- StyleAttr.set2dict on a set of keyword strings: each keyword maps to
itself as a plain keyword string. -/
def kwSet (l : List String) : Dict CompValue :=
  l.map (fun s => (s, CompValue.str s))

/-- Modelled from the spec: config.abs_border_width keyword table
(thin/medium/thick as pre-built numbers). -/
def abs_border_width : Dict CompValue :=
  [("thin", CompValue.num 1), ("medium", CompValue.num 3),
   ("thick", CompValue.num 5)]

/-- Modelled from the spec: config.abs_font_weight keyword table. -/
def abs_font_weight : Dict CompValue :=
  [("normal", CompValue.num 400), ("bold", CompValue.num 700)]

/-- Acceptor wrappers fixing the argument shapes of the registry. -/
def colorA : Acc := fun _env v p => color v p

def font_weightA : Acc := fun _env v p => font_weight v p

def font_sizeA : Acc := fun env v p => font_size env v p

def font_styleA : Acc := fun _env v p => font_style v p

def length_percentageA : Acc := fun env v p => length_percentage env v p none

def no_changeA : Acc := fun _env v p => no_change v p

def noopA : Acc := fun _env v p => noop v p

/-- Style.AALP, the shared auto-or-length-percentage descriptor
(inherits=False because its acceptor is length_percentage). -/
def AALP : StyleAttr :=
  ⟨"auto", [("auto", CompValue.auto)], length_percentageA, false⟩

/-- Style.BorderWidthAttr. -/
def BorderWidthAttr : StyleAttr :=
  ⟨"medium", abs_border_width, length_percentageA, false⟩

/-- Style.BorderStyleAttr (inherits=False given explicitly). -/
def BorderStyleAttr : StyleAttr :=
  ⟨"none",
   kwSet ["none", "hidden", "dotted", "dashed", "solid", "double",
          "groove", "ridge", "inset", "outset"],
   noopA, false⟩

/-- Modelled from the spec: util.inset_keys. -/
def inset_keys : List String := ["top", "right", "bottom", "left"]

/-- Modelled from the spec: util.pad_keys. -/
def pad_keys : List String :=
  ["padding-top", "padding-right", "padding-bottom", "padding-left"]

/-- Modelled from the spec: util.marg_keys. -/
def marg_keys : List String :=
  ["margin-top", "margin-right", "margin-bottom", "margin-left"]

/-- Modelled from the spec: util.bw_keys. -/
def bw_keys : List String :=
  ["border-top-width", "border-right-width", "border-bottom-width",
   "border-left-width"]

/-- Modelled from the spec: util.bc_keys. -/
def bc_keys : List String :=
  ["border-top-color", "border-right-color", "border-bottom-color",
   "border-left-color"]

/-- Modelled from the spec: util.bs_keys. -/
def bs_keys : List String :=
  ["border-top-style", "border-right-style", "border-bottom-style",
   "border-left-style"]

/-- Style.style_attrs: the registry of canonical properties, in source
order, with the shared AALP/BorderWidthAttr/BorderStyleAttr descriptors. -/
def style_attrs : Dict StyleAttr :=
  [("color", ⟨"canvastext", [], colorA, true⟩),
   ("font-weight", ⟨"normal", abs_font_weight, font_weightA, true⟩),
   ("font-family", ⟨"Arial", [], no_changeA, true⟩),
   ("font-size", ⟨"medium", [], font_sizeA, true⟩),
   ("font-style", ⟨"normal", [], font_styleA, true⟩),
   ("line-height", ⟨"normal", [("normal", CompValue.normal)], length_percentageA, true⟩),
   ("word-spacing", ⟨"normal", [("normal", CompValue.normal)], length_percentageA, true⟩),
   ("display", ⟨"inline", kwSet ["inline", "block", "none"], noopA, true⟩),
   ("background-color", ⟨"transparent", [], colorA, true⟩),
   ("width", AALP),
   ("height", AALP),
   ("position", ⟨"static", kwSet ["static", "relative", "absolute", "sticky", "fixed"], noopA, true⟩),
   ("box-sizing", ⟨"content-box", kwSet ["content-box", "border-box"], noopA, true⟩)]
  ++ (inset_keys ++ pad_keys ++ marg_keys).map (fun k => (k, AALP))
  ++ bw_keys.map (fun k => (k, BorderWidthAttr))
  ++ bc_keys.map (fun k => (k, (⟨"currentcolor", [], colorA, true⟩ : StyleAttr)))
  ++ bs_keys.map (fun k => (k, BorderStyleAttr))

/-- Style.colors: `{"currentcolor", *THECOLORS}`. -/
def colors : List String :=
  "currentcolor" :: dKeys THECOLORS

/-- Modelled from the spec: util.check_regex("dimension", value), the
numeric/length-pattern check used for width-like sub-properties (a decimal
number followed by an alphabetic unit, possibly empty). -/
def check_regex_dimension (v : String) : Bool :=
  match decParse (pyStrip v) with
  | some (_, rest) => rest.all Char.isAlpha
  | none => false

/-- Style.guessing: the value validators used to distribute smart-shorthand
tokens (exactly as in the source — note that the `border-width` entry
tests membership in the border-STYLE keywords and the `border-style`
entry tests the border-WIDTH keywords / dimension pattern). -/
def guessing : Dict (String → M Bool) :=
  [("border-width", fun value => Except.ok (dMem BorderStyleAttr.kws value)),
   ("border-color", fun value =>
      if colors.contains value then Except.ok true
      else
        (color value [("color", CompValue.str "black")]).map Option.isSome),
   ("border-style", fun value =>
      Except.ok (dMem BorderWidthAttr.kws value || check_regex_dimension value))]

/-- Style.directions. -/
def directions : List String := ["top", "right", "bottom", "left"]

/-- Style.global_values. -/
def global_values : List String := ["inherit", "initial", "unset", "revert"]

/-- Style.dir_fallbacks. -/
def dir_fallbacks : Dict String :=
  [("right", "top"), ("bottom", "top"), ("left", "right")]

/-- Style.dir_shorthands: shorthand name to longhand template
(`\x7b\x7d` is the literal format placeholder). -/
def dir_shorthands : Dict String :=
  [("margin", "margin-\x7b\x7d"),
   ("padding", "padding-\x7b\x7d"),
   ("border-width", "border-\x7b\x7d-width"),
   ("border-color", "border-\x7b\x7d-color"),
   ("border-style", "border-\x7b\x7d-style"),
   ("inset", "\x7b\x7d")]

/-- Replace every `\x7b\x7d` placeholder in a character list. -/
def substPlaceholder : List Char → List Char → List Char
  | [], _ => []
  | '\x7b' :: '\x7d' :: rest, a => a ++ substPlaceholder rest a
  | c :: rest, a => c :: substPlaceholder rest a

/-- Python `fstring.format(k)` with a single positional placeholder. -/
def pyFormat (fstring arg : String) : String :=
  String.mk (substPlaceholder fstring.toList arg.toList)

/-- Style.smart_shorthands: order-independent shorthands and their target
sub-property sets (source literal order). -/
def smart_shorthands : List (String × List String) :=
  ("border", ["border-width", "border-style", "border-color"]) ::
  directions.map (fun k =>
    ("border-" ++ k,
     ["border-" ++ k ++ "-width", "border-" ++ k ++ "-style",
      "border-" ++ k ++ "-color"]))

/-- Lookup in smart_shorthands. -/
def smartGet? : List (String × List String) → String → Option (List String)
  | [], _ => none
  | (k', v) :: rest, k => if k' = k then some v else smartGet? rest k

/-- One step of Style.split's character loop; state is
(remaining, rec, result, curr, brackets). -/
def splitCore : List Char → Bool → List String → String → ℕ → M (List String)
  | [], rec, result, curr, _brackets =>
      Except.ok (if rec then result ++ [curr] else result)
  | c :: rest, rec, result, curr, brackets =>
      let is_w := pyIsSpace c
      let flushed : Bool × List String × String :=
        if rec && brackets = 0 && is_w then (false, result ++ [curr], "")
        else (rec, result, curr)
      let rec1 := flushed.1
      let result1 := flushed.2.1
      let curr1 := flushed.2.2
      let rec2 := if !is_w then true else rec1
      let curr2 := if !is_w then curr1.push c else curr1
      if c = '(' then splitCore rest rec2 result1 curr2 (brackets + 1)
      else if c = ')' then
        if brackets = 0 then Except.error (Exc.assertionError none)
        else splitCore rest rec2 result1 curr2 (brackets - 1)
      else splitCore rest rec2 result1 curr2 brackets

/-- Style.split: whitespace-split a CSS value respecting function-call
parentheses (whitespace inside parentheses is dropped); a stray closing
parenthesis trips a bare `assert`. -/
def split (s : String) : M (List String) :=
  splitCore s.toList true [] "" 0

/-- Style.is_valid: global keywords are valid for any name (the source
tests the NAME against global_values); `guessing` validators take
precedence; otherwise the registered attribute's keyword table is
consulted (again with the NAME, as in the source) and finally the
acceptor is tried against an empty parent style with `KeyError`
suppressed — a `KeyError` counts as valid. -/
def is_valid (env : Env) (name value : String) : M Bool :=
  if global_values.contains name then Except.ok true
  else
    match dGet? guessing name with
    | some validator => validator value
    | none =>
      match dGet? style_attrs name with
      | some attr =>
          if dMem attr.kws name then Except.ok true
          else
            match attr.accept env value [] with
            | Except.ok none => Except.ok false
            | Except.ok (some _) => Except.ok true
            | Except.error Exc.keyError => Except.ok true
            | Except.error e => Except.error e
      | none => Except.ok false

/-- Python `assert cond` (bare). -/
def bareAssert (cond : Bool) : M Unit :=
  if cond then Except.ok () else Except.error (Exc.assertionError none)

/-- Python `assert cond, msg`. -/
def msgAssert (cond : Bool) (msg : String) : M Unit :=
  if cond then Except.ok () else Except.error (Exc.assertionError (some msg))

/-- One fallback step of the directional fill:
`_res[k] = _res[dir_fallbacks[k]]` (a missing key raises `KeyError`, as
in the source). -/
def dirStep (acc : Dict String) (k : String) : M (Dict String) :=
  match dGet? dir_fallbacks k with
  | none => Except.error Exc.keyError
  | some src =>
      match dGet? acc src with
      | none => Except.error Exc.keyError
      | some v => Except.ok (dSet acc k v)

/-- The directional fill of Style.process_property:
`_res = dict(zip(directions, arr))`, then each missing trailing direction
is read from its fallback inside the growing dict. -/
def dirFill (arr : List String) : M (Dict String) :=
  (directions.drop (directions.zip arr).length).foldlM dirStep
    (directions.zip arr)

/-- One token-to-sub-property test of the smart-shorthand distribution:
assign the token to the sub-property when its validator accepts it. -/
def smartInnerStep (env : Env) (v : String) (acc2 : Dict String)
    (k : String) : M (Dict String) := do
  let b ← is_valid env k v
  Except.ok (if b then dSet acc2 k v else acc2)

/-- The smart-shorthand distribution of Style.process_property:
`{k: v for v in arr for k in shorthand if is_valid(k, v)}`. -/
def smartFold (env : Env) (shorthand : List String) (arr : List String) :
    M (Dict String) :=
  arr.foldlM
    (fun acc v => shorthand.foldlM (smartInnerStep env v) acc)
    []

/-- Python `left = shorthand ^ result.keys()` in the smart-shorthand branch:
the sub-properties left unassigned (plus any assigned key outside the
target set — always none, as the distribution only assigns target keys). -/
def smartLeft (shorthand : List String) (result : Dict String) :
    List String :=
  shorthand.filter (fun k => !dMem result k) ++
    (dKeys result).filter (fun k => !shorthand.contains k)

/-- The body of Style.process_property after `arr = split(value)`, with
the source's dispatch order `all` / directional shorthand / smart
shorthand / plain property. -/
def process_property_arr (env : Env) (key value : String)
    (arr : List String) : M (Dict String) :=
  if key = "all" then do
    bareAssert (arr.length = 1)
    bareAssert (global_values.contains value)
    Except.ok (dUpdateList [] (style_attrs.map (fun kv => (kv.1, value))))
  else
    match dGet? dir_shorthands key with
    | some fstring => do
        msgAssert (arr.length ≤ directions.length)
          ("Too many values: " ++ toString arr.length ++ "/" ++
           toString directions.length)
        let res ← dirFill arr
        Except.ok (dUpdateList [] (res.map (fun kv => (pyFormat fstring kv.1, kv.2))))
    | none =>
      match smartGet? smart_shorthands key with
      | some shorthand => do
          msgAssert (arr.length ≤ shorthand.length)
            ("Too many values: " ++ toString arr.length ++ ", max " ++
             toString shorthand.length)
          let result ← smartFold env shorthand arr
          msgAssert (smartLeft shorthand result).isEmpty
            ("Invalid key(s): " ++
             String.intercalate ", " (smartLeft shorthand result))
          Except.ok result
      | none => do
          bareAssert (arr.length = 1)
          msgAssert (dMem style_attrs key) "Unknown Property"
          let ok ← is_valid env key (arr.headD "")
          msgAssert (ok = true) "Invalid Value"
          Except.ok [(key, arr.headD "")]

/-- Style.process_property: expand one declaration into a map of (possibly
still-shorthand) property names. -/
def process_property (env : Env) (key value : String) : M (Dict String) := do
  let arr ← split value
  process_property_arr env key value arr

/-- Splitting the value determines process_property. -/
theorem process_property_eq_arr {env : Env} {key value : String}
    {arr : List String} (h : split value = Except.ok arr) :
    process_property env key value = process_property_arr env key value arr := by
  unfold process_property
  rw [h]
  rfl

/-- A failed split propagates out of process_property. -/
theorem process_property_split_error {env : Env} {key value : String}
    {e : Exc} (h : split value = Except.error e) :
    process_property env key value = Except.error e := by
  unfold process_property
  rw [h]
  rfl

/-- The `inner` closure of Style.process_input: process each declaration,
folding the expansions into `done`; an `AssertionError` is logged via
`log_error(f"... {e.args[0] or ...}")` and the declaration skipped — but a
bare assert has empty `args`, so `e.args[0]` itself raises `IndexError`;
any other exception propagates unchanged. -/
def inner (env : Env) : List (String × String) → Dict String → M (Dict String)
  | [], done => Except.ok done
  | (key, value) :: rest, done =>
      match process_property env key value with
      | Except.ok m => inner env rest (dUpdateList done m)
      | Except.error (Exc.assertionError (some _msg)) => inner env rest done
      | Except.error (Exc.assertionError none) => Except.error Exc.indexError
      | Except.error e => Except.error e

/-- A key is canonical when it is registered in style_attrs. -/
def canonicalKey (k : String) : Bool :=
  dMem style_attrs k

/-- The `while True` loop of Style.process_input with explicit fuel
(`none` models a loop that has not yet reached its fixed point within the
given fuel): partition the current result into canonical and
non-canonical keys, stop when nothing non-canonical is left, otherwise
re-expand the non-canonical subset into the canonical part. -/
def loopF (env : Env) : ℕ → Dict String → M (Option (Dict String))
  | 0, _done => Except.ok none
  | n + 1, done =>
      let _done := done.filter (fun kv => canonicalKey kv.1)
      let todo := done.filter (fun kv => !canonicalKey kv.1)
      if todo.isEmpty then Except.ok (some _done)
      else
        match inner env todo _done with
        | Except.error e => Except.error e
        | Except.ok done' => loopF env n done'

/-- Style.process_input with the loop fuel exposed. -/
def process_input_fuel (env : Env) (fuel : ℕ) (d : List (String × String)) :
    M (Option (Dict String)) :=
  match inner env d [] with
  | Except.error e => Except.error e
  | Except.ok done => loopF env fuel done

/-- Style.process_input: unpack shorthands, filter and report invalid
declarations; three loop passes always reach the fixed point (proved
below). -/
def process_input (env : Env) (d : List (String × String)) :
    M (Option (Dict String)) :=
  process_input_fuel env 3 d

/-- A cascade declaration value: raw text plus the important flag. -/
abbrev Val := String × Bool

/-- The per-shared-key choice of Style.join_styles:
`style2[k] if style2[k][1] and not style1[k][1] else style1[k]`. -/
def joinVal (v2? v1? : Option Val) : Option Val :=
  match v2?, v1? with
  | some v2, some v1 => some (if v2.2 && !v1.2 then v2 else v1)
  | _, _ => none

/-- Python `style1 ^ style2.keys()`: the keys in exactly one of the two maps. -/
def joinSymKeys (style1 style2 : Dict Val) : List String :=
  (dKeys style1).filter (fun k => !dMem style2 k) ++
    (dKeys style2).filter (fun k => !dMem style1 k)

/-- Python `style1 & style2.keys()`: the keys in both maps. -/
def joinInterKeys (style1 style2 : Dict Val) : List String :=
  (dKeys style1).filter (fun k => dMem style2 k)

/-- Style.join_styles: `fused = style1 | style2`; keys in exactly one of
the two maps pass through from `fused`; keys in both take the second's
declaration only if it is important and the first's is not. -/
def join_styles (style1 style2 : Dict Val) : Dict Val :=
  dUpdateList
    (dUpdateList []
      ((joinSymKeys style1 style2).filterMap
        (fun k => (dGet? (dUpdateList style1 style2) k).map (fun v => (k, v)))))
    ((joinInterKeys style1 style2).filterMap
      (fun k => (joinVal (dGet? style2 k) (dGet? style1 k)).map (fun v => (k, v))))

/-! Dictionary lemmas. -/


theorem dGet?_dSet {α : Type} (d : Dict α) (k k' : String) (v : α) :
    dGet? (dSet d k v) k' = if k = k' then some v else dGet? d k' := by
  induction d with
  | nil => simp only [dSet, dGet?]
  | cons hd tl ih =>
      obtain ⟨a, w⟩ := hd
      by_cases hak : a = k
      · subst hak
        by_cases h2 : a = k' <;> simp [dSet, dGet?, h2]
      · by_cases h2 : a = k'
        · have hkk : ¬ k = k' := fun h => hak (h2.trans h.symm)
          have hk2 : ¬ k' = k := fun h => hkk h.symm
          simp [dSet, dGet?, hak, h2, hkk, hk2]
        · simp [dSet, dGet?, hak, h2, ih]

theorem dGet?_dUpdateList {α : Type} (m d : Dict α) (k : String) :
    dGet? (dUpdateList d m) k = optOr (dGetLast? m k) (dGet? d k) := by
  induction m generalizing d with
  | nil => simp [dUpdateList, dGetLast?, optOr]
  | cons hd tl ih =>
      obtain ⟨a, w⟩ := hd
      show dGet? (dUpdateList (dSet d a w) tl) k = _
      rw [ih]
      simp only [dGetLast?]
      cases h : dGetLast? tl k with
      | some v => simp [optOr]
      | none =>
          simp only [optOr, dGet?_dSet]
          by_cases hak : a = k <;> simp [hak, optOr]

theorem mem_dKeys_iff {α : Type} (d : Dict α) (k : String) :
    k ∈ dKeys d ↔ (dGet? d k).isSome := by
  induction d with
  | nil => simp [dKeys, dGet?]
  | cons hd tl ih =>
      obtain ⟨a, w⟩ := hd
      have hkeys : dKeys ((a, w) :: tl) = a :: dKeys tl := rfl
      rw [hkeys, List.mem_cons, ih]
      by_cases hak : a = k
      · subst hak
        simp [dGet?]
      · have : ¬ k = a := fun h => hak h.symm
        simp [dGet?, hak, this]

theorem dGet?_eq_none_of_not_mem {α : Type} {d : Dict α} {k : String}
    (h : k ∉ dKeys d) : dGet? d k = none := by
  rcases hval : dGet? d k with _ | v
  · rfl
  · exact absurd ((mem_dKeys_iff d k).mpr (by simp [hval])) h

theorem dGetLast?_eq_dGet? {α : Type} {m : Dict α} (h : (dKeys m).Nodup)
    (k : String) : dGetLast? m k = dGet? m k := by
  induction m with
  | nil => rfl
  | cons hd tl ih =>
      obtain ⟨a, w⟩ := hd
      have hkeys : dKeys ((a, w) :: tl) = a :: dKeys tl := rfl
      rw [hkeys, List.nodup_cons] at h
      obtain ⟨hna, hnd⟩ := h
      simp only [dGetLast?, dGet?, ih hnd]
      by_cases hak : a = k
      · subst hak
        rw [dGet?_eq_none_of_not_mem hna]
        simp [optOr]
      · cases hv : dGet? tl k <;> simp [hak, optOr]

theorem mem_dKeys_dSet {α : Type} (d : Dict α) (k a : String) (v : α) :
    a ∈ dKeys (dSet d k v) ↔ a ∈ dKeys d ∨ a = k := by
  rw [mem_dKeys_iff, dGet?_dSet, mem_dKeys_iff]
  by_cases hk : k = a
  · subst hk
    simp
  · have : ¬ a = k := fun h => hk h.symm
    simp [hk, this]

theorem mem_dKeys_dUpdateList {α : Type} {m d : Dict α} {k : String}
    (h : k ∈ dKeys (dUpdateList d m)) : k ∈ dKeys d ∨ k ∈ dKeys m := by
  induction m generalizing d with
  | nil => exact Or.inl h
  | cons hd tl ih =>
      obtain ⟨a, w⟩ := hd
      have h' : k ∈ dKeys (dUpdateList (dSet d a w) tl) := h
      have hkeys : dKeys ((a, w) :: tl) = a :: dKeys tl := rfl
      rcases ih h' with hmem | hmem
      · rcases (mem_dKeys_dSet d a k w).mp hmem with hd' | hka
        · exact Or.inl hd'
        · exact Or.inr (by rw [hkeys, hka]; exact List.mem_cons_self a _)
      · exact Or.inr (by rw [hkeys]; exact List.mem_cons_of_mem a hmem)

theorem dGet?_append {α : Type} (d1 d2 : Dict α) (k : String) :
    dGet? (d1 ++ d2) k = optOr (dGet? d1 k) (dGet? d2 k) := by
  induction d1 with
  | nil => simp [dGet?, optOr]
  | cons hd tl ih =>
      obtain ⟨a, w⟩ := hd
      by_cases hak : a = k <;> simp [dGet?, hak, ih, optOr]

theorem dSet_eq_append {α : Type} {d : Dict α} {k : String} (v : α)
    (h : dMem d k = false) : dSet d k v = d ++ [(k, v)] := by
  induction d with
  | nil => rfl
  | cons hd tl ih =>
      obtain ⟨a, w⟩ := hd
      simp only [dMem, dGet?] at h
      by_cases hak : a = k
      · rw [if_pos hak] at h
        simp at h
      · rw [if_neg hak] at h
        simp only [dSet, if_neg hak, List.cons_append, List.cons.injEq, true_and]
        exact ih (by simpa [dMem] using h)

theorem dMem_append {α : Type} (d1 d2 : Dict α) (k : String) :
    dMem (d1 ++ d2) k = (dMem d1 k || dMem d2 k) := by
  simp only [dMem, dGet?_append]
  cases h : dGet? d1 k <;> simp [optOr]

theorem dUpdateList_eq_append {α : Type} {m d : Dict α}
    (hfresh : ∀ k ∈ dKeys m, dMem d k = false)
    (hnd : (dKeys m).Nodup) : dUpdateList d m = d ++ m := by
  induction m generalizing d with
  | nil => simp [dUpdateList]
  | cons hd tl ih =>
      obtain ⟨a, w⟩ := hd
      have hkeys : dKeys ((a, w) :: tl) = a :: dKeys tl := rfl
      rw [hkeys, List.nodup_cons] at hnd
      obtain ⟨hna, hnd'⟩ := hnd
      have hda : dMem d a = false := hfresh a (by rw [hkeys]; exact List.mem_cons_self a _)
      show dUpdateList (dSet d a w) tl = d ++ (a, w) :: tl
      rw [dSet_eq_append w hda]
      have hfresh' : ∀ k ∈ dKeys tl, dMem (d ++ [(a, w)]) k = false := by
        intro k hk
        rw [dMem_append]
        have h1 : dMem d k = false :=
          hfresh k (by rw [hkeys]; exact List.mem_cons_of_mem a hk)
        have hka : ¬ a = k := fun h => hna (h ▸ hk)
        have h2 : dMem [(a, w)] k = false := by simp [dMem, dGet?, hka]
        simp [h1, h2]
      rw [ih hfresh' hnd']
      simp

theorem dGetLast?_tabulate {α : Type} (ks : List String)
    (F : String → Option α) (k : String) :
    dGetLast? (ks.filterMap (fun x => (F x).map (fun v => (x, v)))) k =
      if k ∈ ks then F k else none := by
  induction ks with
  | nil => simp [dGetLast?]
  | cons a rest ih =>
      cases hFa : F a with
      | none =>
          simp only [List.filterMap_cons, hFa, Option.map_none']
          rw [ih]
          by_cases hk : k ∈ rest
          · simp [hk]
          · by_cases hka : k = a
            · subst hka
              simp [hk, hFa]
            · simp [hk, hka]
      | some v =>
          simp only [List.filterMap_cons, hFa, Option.map_some']
          simp only [dGetLast?]
          rw [ih]
          by_cases hk : k ∈ rest
          · simp only [if_pos hk]
            cases hFk : F k with
            | some w => simp [optOr, List.mem_cons, hk, hFk]
            | none =>
                have hka : ¬ a = k := by
                  intro h
                  rw [h, hFk] at hFa
                  exact Option.noConfusion hFa
                simp [optOr, List.mem_cons, hk, hka, hFk]
          · simp only [if_neg hk]
            by_cases hka : a = k
            · subst hka
              simp [optOr, hFa]
            · have hk2 : ¬ k = a := fun h => hka h.symm
              simp [optOr, hka, hk2, hk]


/-! C4: the cascade merge rule of join_styles. -/

/-- C4: for any two duplicate-free style maps, join_styles keeps the
first map's declaration for a key present in both unless the second's is
marked important and the first's is not, and passes every key present in
exactly one of the maps through with its declaration unchanged. -/
theorem join_styles_spec (s1 s2 : Dict Val) (k : String)
    (h1 : (dKeys s1).Nodup) (h2 : (dKeys s2).Nodup) :
    dGet? (join_styles s1 s2) k =
      match dGet? s1 k, dGet? s2 k with
      | some v1, some v2 => some (if v2.2 && !v1.2 then v2 else v1)
      | some v1, none => some v1
      | none, some v2 => some v2
      | none, none => none := by
  have hmem1 := mem_dKeys_iff s1 k
  have hmem2 := mem_dKeys_iff s2 k
  have hfused : dGet? (dUpdateList s1 s2) k =
      optOr (dGet? s2 k) (dGet? s1 k) := by
    rw [dGet?_dUpdateList, dGetLast?_eq_dGet? h2]
  have hstep : dGet? (join_styles s1 s2) k =
      optOr (if k ∈ joinInterKeys s1 s2 then
               joinVal (dGet? s2 k) (dGet? s1 k) else none)
        (optOr (if k ∈ joinSymKeys s1 s2 then
                 dGet? (dUpdateList s1 s2) k else none) none) := by
    show dGet? (dUpdateList (dUpdateList [] _) _) k = _
    rw [dGet?_dUpdateList, dGetLast?_tabulate, dGet?_dUpdateList,
      dGetLast?_tabulate]
    simp [dGet?]
  rw [hstep]
  have hInter : k ∈ joinInterKeys s1 s2 ↔
      ((dGet? s1 k).isSome ∧ (dGet? s2 k).isSome) := by
    rw [joinInterKeys, List.mem_filter, ← hmem1]
    simp [dMem]
  have hSym : k ∈ joinSymKeys s1 s2 ↔
      (((dGet? s1 k).isSome ∧ ¬ (dGet? s2 k).isSome) ∨
       ((dGet? s2 k).isSome ∧ ¬ (dGet? s1 k).isSome)) := by
    rw [joinSymKeys, List.mem_append, List.mem_filter, List.mem_filter]
    simp [dMem, hmem1, hmem2]
  cases hv1 : dGet? s1 k with
  | some v1 =>
      cases hv2 : dGet? s2 k with
      | some v2 =>
          rw [if_pos (hInter.mpr (by simp [hv1, hv2]))]
          simp [joinVal, optOr, hv1, hv2]
      | none =>
          rw [if_neg (by rw [hInter]; simp [hv2]),
            if_pos (hSym.mpr (by simp [hv1, hv2]))]
          rw [hfused]
          simp [optOr, hv1, hv2]
  | none =>
      cases hv2 : dGet? s2 k with
      | some v2 =>
          rw [if_neg (by rw [hInter]; simp [hv1]),
            if_pos (hSym.mpr (by simp [hv1, hv2]))]
          rw [hfused]
          simp [optOr, hv1, hv2]
      | none =>
          rw [if_neg (by rw [hInter]; simp [hv1]),
            if_neg (by rw [hSym]; simp [hv1, hv2])]
          simp [optOr, hv1, hv2]

/-- C4 witness: the two concrete cascade examples of the claim — a later
important declaration overrides an earlier non-important one, and an
earlier important declaration survives a later non-important one. -/
theorem join_styles_spec_witness :
    dGet? (join_styles [("color", ("red", false))] [("color", ("blue", true))])
        "color" = some ("blue", true) ∧
    dGet? (join_styles [("color", ("red", true))] [("color", ("blue", false))])
        "color" = some ("red", true) := by
  constructor
  · have h := join_styles_spec [("color", ("red", false))]
      [("color", ("blue", true))] "color" (by decide) (by decide)
    simpa using h
  · have h := join_styles_spec [("color", ("red", true))]
      [("color", ("blue", false))] "color" (by decide) (by decide)
    simpa using h

/-- A concrete environment for closed evaluations: an 800x600 viewport
with root and default font size 16. -/
def stdEnv : Env := ⟨800, 600, some 16, 16⟩

/-! C5: the font_weight thresholds. -/

/-- C5: font_weight reproduces the relative-weight thresholds of the
source exactly: `lighter` maps a parent weight below 100 to itself, below
550 to 100, below 700 to 400, up to 1000 to 700 and fails above 1000;
`bolder` maps below 350 to 400, below 550 to 700, below 900 to 900 and
keeps the parent weight otherwise; any other token is accepted as a
numeric literal exactly when it parses and lies in (0, 1000]. -/
theorem font_weight_thresholds (p : ℚ) :
    (font_weight "lighter" [("font-weight", CompValue.num p)] =
      (if p < 100 then Except.ok (some (CompValue.num p))
       else if p < 550 then Except.ok (some (CompValue.num 100))
       else if p < 700 then Except.ok (some (CompValue.num 400))
       else if p ≤ 1000 then Except.ok (some (CompValue.num 700))
       else Except.error Exc.valueError)) ∧
    (font_weight "bolder" [("font-weight", CompValue.num p)] =
      (if p < 350 then Except.ok (some (CompValue.num 400))
       else if p < 550 then Except.ok (some (CompValue.num 700))
       else if p < 900 then Except.ok (some (CompValue.num 900))
       else Except.ok (some (CompValue.num p)))) ∧
    (∀ s n, s ≠ "lighter" → s ≠ "bolder" → pyFloat? s = some n →
      font_weight s [("font-weight", CompValue.num p)] =
        (if 0 < n ∧ n ≤ 1000 then Except.ok (some (CompValue.num n))
         else Except.ok none)) := by
  refine ⟨?_, ?_, ?_⟩
  · by_cases h1 : p < 100
    · simp [font_weight, pyGetNum, dGet?, h1]
    · by_cases h2 : p < 550
      · simp [font_weight, pyGetNum, dGet?, h1, h2]
      · by_cases h3 : p < 700
        · simp [font_weight, pyGetNum, dGet?, h1, h2, h3]
        · by_cases h4 : p ≤ 1000
          · simp [font_weight, pyGetNum, dGet?, h1, h2, h3, h4]
          · simp [font_weight, pyGetNum, dGet?, h1, h2, h3, h4]
  · by_cases h1 : p < 350
    · simp [font_weight, pyGetNum, dGet?, h1]
    · by_cases h2 : p < 550
      · simp [font_weight, pyGetNum, dGet?, h1, h2]
      · by_cases h3 : p < 900
        · simp [font_weight, pyGetNum, dGet?, h1, h2, h3]
        · simp [font_weight, pyGetNum, dGet?, h1, h2, h3]
  · intro s n hsl hsb hparse
    by_cases h0 : 0 < n
    · by_cases h1 : n ≤ 1000
      · simp [font_weight, pyGetNum, dGet?, hsl, hsb, hparse, h0, h1]
      · simp [font_weight, pyGetNum, dGet?, hsl, hsb, hparse, h0, h1]
    · simp [font_weight, pyGetNum, dGet?, hsl, hsb, hparse, h0]

/-- C5 witness: the four examples of the claim plus a numeric literal in
range and one out of range. -/
theorem font_weight_thresholds_witness :
    font_weight "lighter" [("font-weight", CompValue.num 600)] =
      Except.ok (some (CompValue.num 400)) ∧
    font_weight "lighter" [("font-weight", CompValue.num 750)] =
      Except.ok (some (CompValue.num 700)) ∧
    font_weight "bolder" [("font-weight", CompValue.num 300)] =
      Except.ok (some (CompValue.num 400)) ∧
    font_weight "bolder" [("font-weight", CompValue.num 950)] =
      Except.ok (some (CompValue.num 950)) ∧
    font_weight "500" [("font-weight", CompValue.num 400)] =
      Except.ok (some (CompValue.num 500)) ∧
    font_weight "1001" [("font-weight", CompValue.num 400)] =
      Except.ok none := by
  refine ⟨?_, ?_, ?_, ?_, ?_, ?_⟩
  · rw [(font_weight_thresholds 600).1]
    norm_num
  · rw [(font_weight_thresholds 750).1]
    norm_num
  · rw [(font_weight_thresholds 300).2.1]
    norm_num
  · rw [(font_weight_thresholds 950).2.1]
    norm_num
  · rw [(font_weight_thresholds 400).2.2 "500" 500 (by decide) (by decide)
      (by rfl)]
    norm_num
  · rw [(font_weight_thresholds 400).2.2 "1001" 1001 (by decide) (by decide)
      (by rfl)]
    norm_num

/-! C1: the smart-shorthand expansion of `border`. -/

/-- C1 (actual behavior): expanding `border: 2px solid red` assigns the
length token `2px` to border-STYLE and the style keyword `solid` to
border-WIDTH — the `guessing` validators for the two sub-properties are
swapped in the source — while `red` goes to border-color; the assignment
is the same mapping for the permuted declaration `border: red 2px solid`. -/
theorem border_shorthand_swapped :
    process_property stdEnv "border" "2px solid red" =
      Except.ok [("border-style", "2px"), ("border-width", "solid"),
                 ("border-color", "red")] ∧
    process_property stdEnv "border" "red 2px solid" =
      Except.ok [("border-color", "red"), ("border-style", "2px"),
                 ("border-width", "solid")] := by
  constructor
  · decide
  · decide

/-! C2: error locality of process_input. -/

/-- C2 (actual behavior): a known property with a wrong-unit value makes
process_input raise ValueError — the acceptor's exception is not one of
the suppressed classes — so the valid `color: red` declaration after it
is never processed and no result is returned. -/
theorem process_input_aborts_on_invalid_value :
    process_input stdEnv [("margin-top", "3foo"), ("color", "red")] =
      Except.error Exc.valueError := by
  decide

/-! C3: totality of the acceptors. -/

/-- C3 (actual behavior): the acceptors are not total — `font_weight` with
value `lighter` and a parent weight above 1000 raises ValueError, and
`length`/`length_percentage` raise ValueError on a non-zero number with an
unknown unit instead of returning the invalid marker. -/
theorem acceptors_raise :
    font_weight "lighter" [("font-weight", CompValue.num 1500)] =
      Except.error Exc.valueError ∧
    length stdEnv "3foo" [] = Except.error Exc.valueError ∧
    length_percentage stdEnv "3foo" [] none = Except.error Exc.valueError := by
  refine ⟨?_, ?_, ?_⟩
  · decide
  · decide
  · decide

/-! C7: the literal-zero short-circuit. -/

/-- C7 (with actual error behavior): a dimension whose numeric part is 0
converts to 0 whatever its unit; `length_percentage` maps the tokens `0`
and `0unknownunit` to 0 for every environment and parent style; but a
NON-zero number with an unknown unit raises ValueError rather than
returning the invalid marker. -/
theorem zero_short_circuit :
    (∀ (env : Env) (p_style : PStyle) (unit : String),
       _length env (0, unit) p_style = Except.ok 0) ∧
    (∀ (env : Env) (p_style : PStyle),
       length_percentage env "0" p_style none =
         Except.ok (some (CompValue.num 0))) ∧
    (∀ (env : Env) (p_style : PStyle),
       length_percentage env "0unknownunit" p_style none =
         Except.ok (some (CompValue.num 0))) ∧
    (∀ (env : Env) (p_style : PStyle),
       length_percentage env "1unknownunit" p_style none =
         Except.error Exc.valueError) := by
  refine ⟨?_, ?_, ?_, ?_⟩
  · intro env p_style unit
    rfl
  · intro env p_style
    rfl
  · intro env p_style
    rfl
  · intro env p_style
    rfl

/-! C10: KeyError suppression in is_valid. -/

/-- C10: for any registered property without a `guessing` validator whose
acceptor raises KeyError against the empty parent-style stand-in (as the
parent-consulting em/rem/larger/smaller/lighter/bolder values do),
is_valid returns True — the KeyError is suppressed and counted as valid. -/
theorem is_valid_keyerror (env : Env) (name value : String) (attr : StyleAttr)
    (hg : global_values.contains name = false)
    (hguess : dGet? guessing name = none)
    (hattr : dGet? style_attrs name = some attr)
    (hacc : attr.accept env value [] = Except.error Exc.keyError) :
    is_valid env name value = Except.ok true := by
  unfold is_valid
  simp only [hg, hguess, hattr]
  rw [hacc]
  by_cases hkw : dMem attr.kws name
  · simp [hkw]
  · simp [hkw]

/-- C10 witness: parent-dependent values are accepted at expansion time —
relative font sizes, relative font weights, `em` margins, and (with no
root element set) `rem` widths. -/
theorem is_valid_keyerror_witness :
    is_valid stdEnv "font-size" "larger" = Except.ok true ∧
    is_valid stdEnv "font-size" "smaller" = Except.ok true ∧
    is_valid stdEnv "font-weight" "lighter" = Except.ok true ∧
    is_valid stdEnv "font-weight" "bolder" = Except.ok true ∧
    is_valid stdEnv "margin-top" "2em" = Except.ok true ∧
    is_valid (Env.mk 800 600 none 16) "width" "3rem" = Except.ok true := by
  refine ⟨?_, ?_, ?_, ?_, ?_, ?_⟩
  · exact is_valid_keyerror stdEnv "font-size" "larger"
      ⟨"medium", [], font_sizeA, true⟩ (by decide) (by rfl) (by rfl) (by decide)
  · exact is_valid_keyerror stdEnv "font-size" "smaller"
      ⟨"medium", [], font_sizeA, true⟩ (by decide) (by rfl) (by rfl) (by decide)
  · exact is_valid_keyerror stdEnv "font-weight" "lighter"
      ⟨"normal", abs_font_weight, font_weightA, true⟩ (by decide) (by rfl)
      (by rfl) (by decide)
  · exact is_valid_keyerror stdEnv "font-weight" "bolder"
      ⟨"normal", abs_font_weight, font_weightA, true⟩ (by decide) (by rfl)
      (by rfl) (by decide)
  · exact is_valid_keyerror stdEnv "margin-top" "2em" AALP (by decide)
      (by rfl) (by rfl) (by decide)
  · exact is_valid_keyerror (Env.mk 800 600 none 16) "width" "3rem" AALP
      (by decide) (by rfl) (by rfl) (by decide)

/-! C6: directional shorthands. -/

theorem dGet?_mem {α : Type} {d : Dict α} {k : String} {v : α}
    (h : dGet? d k = some v) : (k, v) ∈ d := by
  induction d with
  | nil => exact Option.noConfusion h
  | cons hd tl ih =>
      obtain ⟨a, w⟩ := hd
      by_cases hak : a = k
      · subst hak
        simp only [dGet?, if_pos rfl] at h
        obtain rfl := Option.some.injEq _ _ ▸ h
        exact List.mem_cons_self _ _
      · simp only [dGet?, if_neg hak] at h
        exact List.mem_cons_of_mem _ (ih h)

/-- A directional-shorthand key reduces process_property_arr to the
directional branch. -/
theorem process_property_arr_dir (env : Env) {key f : String}
    (v : String) (arr : List String) (hkey : key ≠ "all")
    (hdir : dGet? dir_shorthands key = some f) :
    process_property_arr env key v arr = (do
      msgAssert (arr.length ≤ directions.length)
        ("Too many values: " ++ toString arr.length ++ "/" ++
         toString directions.length)
      let res ← dirFill arr
      Except.ok (dUpdateList []
        (res.map (fun kv => (pyFormat f kv.1, kv.2))))) := by
  unfold process_property_arr
  rw [if_neg hkey, hdir]

/-- C6: for every directional shorthand (margin, padding, inset,
border-width, border-color, border-style), k value tokens with
1 ≤ k ≤ 4 map to top/right/bottom/left in that order with the fallback
chain right←top, bottom←top, left←right filling the missing trailing
directions, and more than 4 tokens is an AssertionError that makes
process_input drop the whole declaration. -/
theorem dir_shorthand_spec (env : Env) (key f : String)
    (hdir : dGet? dir_shorthands key = some f) :
    (∀ v a, split v = Except.ok [a] →
       process_property env key v =
         Except.ok [(pyFormat f "top", a), (pyFormat f "right", a),
                    (pyFormat f "bottom", a), (pyFormat f "left", a)]) ∧
    (∀ v a b, split v = Except.ok [a, b] →
       process_property env key v =
         Except.ok [(pyFormat f "top", a), (pyFormat f "right", b),
                    (pyFormat f "bottom", a), (pyFormat f "left", b)]) ∧
    (∀ v a b c, split v = Except.ok [a, b, c] →
       process_property env key v =
         Except.ok [(pyFormat f "top", a), (pyFormat f "right", b),
                    (pyFormat f "bottom", c), (pyFormat f "left", b)]) ∧
    (∀ v a b c d, split v = Except.ok [a, b, c, d] →
       process_property env key v =
         Except.ok [(pyFormat f "top", a), (pyFormat f "right", b),
                    (pyFormat f "bottom", c), (pyFormat f "left", d)]) ∧
    (∀ v arr, split v = Except.ok arr → 4 < arr.length →
       process_property env key v =
         Except.error (Exc.assertionError
           (some ("Too many values: " ++ toString arr.length ++ "/" ++
                  toString directions.length))) ∧
       process_input env [(key, v)] = Except.ok (some [])) := by
  have hkey : key ≠ "all" := by
    intro h
    rw [h] at hdir
    simp [dir_shorthands, dGet?] at hdir
  have hbig : ∀ v arr, split v = Except.ok arr → 4 < arr.length →
      process_property env key v =
        Except.error (Exc.assertionError
          (some ("Too many values: " ++ toString arr.length ++ "/" ++
                 toString directions.length))) ∧
      process_input env [(key, v)] = Except.ok (some []) := by
    intro v arr hs hlen
    have hc : ¬ (arr.length ≤ directions.length) := by
      simp only [directions, List.length_cons, List.length_nil]
      omega
    have hmsg : process_property env key v =
        Except.error (Exc.assertionError
          (some ("Too many values: " ++ toString arr.length ++ "/" ++
                 toString directions.length))) := by
      rw [process_property_eq_arr hs,
        process_property_arr_dir env v arr hkey hdir]
      rw [show (decide (arr.length ≤ directions.length)) = false from
        decide_eq_false hc]
      rfl
    refine ⟨hmsg, ?_⟩
    simp only [process_input, process_input_fuel, inner, hmsg]
    rfl
  have hmem : (key, f) ∈ dir_shorthands := dGet?_mem hdir
  simp only [dir_shorthands, List.mem_cons, List.not_mem_nil, or_false,
    Prod.mk.injEq] at hmem
  rcases hmem with ⟨rfl, rfl⟩ | ⟨rfl, rfl⟩ | ⟨rfl, rfl⟩ | ⟨rfl, rfl⟩ |
    ⟨rfl, rfl⟩ | ⟨rfl, rfl⟩ <;>
    exact ⟨fun v a hs => by rw [process_property_eq_arr hs]; rfl,
      fun v a b hs => by rw [process_property_eq_arr hs]; rfl,
      fun v a b c hs => by rw [process_property_eq_arr hs]; rfl,
      fun v a b c d hs => by rw [process_property_eq_arr hs]; rfl,
      hbig⟩

/-- C6 witness: `margin: 1px 2px` expands with the fallback chain, and a
five-token margin declaration is dropped by process_input. -/
theorem dir_shorthand_spec_witness :
    process_property stdEnv "margin" "1px 2px" =
      Except.ok [("margin-top", "1px"), ("margin-right", "2px"),
                 ("margin-bottom", "1px"), ("margin-left", "2px")] ∧
    process_input stdEnv [("margin", "1px 2px 3px 4px 5px")] =
      Except.ok (some []) := by
  constructor
  · exact (dir_shorthand_spec stdEnv "margin" "margin-\x7b\x7d"
      (by rfl)).2.1 "1px 2px" "1px" "2px" (by decide)
  · exact ((dir_shorthand_spec stdEnv "margin" "margin-\x7b\x7d"
      (by rfl)).2.2.2.2 "1px 2px 3px 4px 5px"
      ["1px", "2px", "3px", "4px", "5px"] (by decide) (by decide)).2

/-! C8: idempotence on canonical declaration sets. -/

theorem smartGet?_mem {l : List (String × List String)} {k : String}
    {v : List String} (h : smartGet? l k = some v) : (k, v) ∈ l := by
  induction l with
  | nil => exact Option.noConfusion h
  | cons hd tl ih =>
      obtain ⟨a, w⟩ := hd
      by_cases hak : a = k
      · subst hak
        simp only [smartGet?, if_pos rfl] at h
        obtain rfl := Option.some.injEq _ _ ▸ h
        exact List.mem_cons_self _ _
      · simp only [smartGet?, if_neg hak] at h
        exact List.mem_cons_of_mem _ (ih h)

/-- A canonical key is not a directional shorthand. -/
theorem canonical_not_dir {key : String} (hc : canonicalKey key = true) :
    dGet? dir_shorthands key = none := by
  cases hd : dGet? dir_shorthands key with
  | none => rfl
  | some f =>
      have hmem := dGet?_mem hd
      have hall : dir_shorthands.all (fun kv => !canonicalKey kv.1) = true := by
        decide
      have hbad := List.all_eq_true.mp hall _ hmem
      simp only [Bool.not_eq_true'] at hbad
      rw [hc] at hbad
      exact Bool.noConfusion hbad

/-- A canonical key is not a smart shorthand. -/
theorem canonical_not_smart {key : String} (hc : canonicalKey key = true) :
    smartGet? smart_shorthands key = none := by
  cases hd : smartGet? smart_shorthands key with
  | none => rfl
  | some sh =>
      have hmem := smartGet?_mem hd
      have hall : smart_shorthands.all (fun kv => !canonicalKey kv.1) = true := by
        decide
      have hbad := List.all_eq_true.mp hall _ hmem
      simp only [Bool.not_eq_true'] at hbad
      rw [hc] at hbad
      exact Bool.noConfusion hbad

/-- A canonical single-token declaration that validates expands to
itself. -/
theorem process_property_plain (env : Env) {key v : String}
    (hsplit : split v = Except.ok [v])
    (hcanon : canonicalKey key = true)
    (hvalid : is_valid env key v = Except.ok true) :
    process_property env key v = Except.ok [(key, v)] := by
  rw [process_property_eq_arr hsplit]
  unfold process_property_arr
  have hkey : ¬ (key = "all") := by
    intro h
    rw [h] at hcanon
    exact absurd hcanon (by decide)
  rw [if_neg hkey, canonical_not_dir hcanon, canonical_not_smart hcanon]
  have hmemattr : dMem style_attrs key = true := hcanon
  simp only [List.length_cons, List.length_nil, List.headD_cons, hmemattr,
    hvalid, bareAssert, msgAssert]
  rfl

theorem inner_all_plain (env : Env) (d : List (String × String)) :
    ∀ (done : Dict String),
    (∀ p ∈ d, split p.2 = Except.ok [p.2]) →
    (∀ p ∈ d, canonicalKey p.1 = true) →
    (∀ p ∈ d, is_valid env p.1 p.2 = Except.ok true) →
    (dKeys d).Nodup →
    (∀ k ∈ dKeys d, dMem done k = false) →
    inner env d done = Except.ok (done ++ d) := by
  induction d with
  | nil =>
      intro done _ _ _ _ _
      simp [inner]
  | cons hd tl ih =>
      obtain ⟨k, v⟩ := hd
      intro done hs hc hv hnd hfresh
      have hkeys : dKeys ((k, v) :: tl) = k :: dKeys tl := rfl
      rw [hkeys, List.nodup_cons] at hnd
      obtain ⟨hknotl, hndtl⟩ := hnd
      have hpp := process_property_plain env
        (hs (k, v) (List.mem_cons_self _ _))
        (hc (k, v) (List.mem_cons_self _ _))
        (hv (k, v) (List.mem_cons_self _ _))
      simp only [inner, hpp]
      have hupd : dUpdateList done [(k, v)] = done ++ [(k, v)] := by
        show dSet done k v = done ++ [(k, v)]
        exact dSet_eq_append v (hfresh k (by rw [hkeys]; exact List.mem_cons_self _ _))
      rw [hupd]
      have hfresh' : ∀ k' ∈ dKeys tl, dMem (done ++ [(k, v)]) k' = false := by
        intro k' hk'
        rw [dMem_append]
        have h1 : dMem done k' = false :=
          hfresh k' (by rw [hkeys]; exact List.mem_cons_of_mem _ hk')
        have hka : ¬ k = k' := fun h => hknotl (h ▸ hk')
        have h2 : dMem [(k, v)] k' = false := by simp [dMem, dGet?, hka]
        simp [h1, h2]
      rw [ih (done ++ [(k, v)])
        (fun p hp => hs p (List.mem_cons_of_mem _ hp))
        (fun p hp => hc p (List.mem_cons_of_mem _ hp))
        (fun p hp => hv p (List.mem_cons_of_mem _ hp))
        hndtl hfresh']
      simp

/-- A loop pass over an all-canonical dict returns it unchanged. -/
theorem loopF_all_canonical (env : Env) (n : ℕ) (done : Dict String)
    (h : ∀ p ∈ done, canonicalKey p.1 = true) :
    loopF env (n + 1) done = Except.ok (some done) := by
  have h1 : done.filter (fun kv => canonicalKey kv.1) = done :=
    List.filter_eq_self.mpr h
  have h2 : done.filter (fun kv => !canonicalKey kv.1) = [] := by
    rw [List.filter_eq_nil]
    intro a ha
    simp [h a ha]
  simp only [loopF, h1, h2, List.isEmpty_nil, if_pos]

/-- C8: a declaration list whose keys are all canonical registered
properties, pairwise distinct, and whose values are valid single tokens
passes through process_input unchanged — expansion of an
already-canonical set is a no-op. -/
theorem process_input_idempotent (env : Env) (d : List (String × String))
    (hcanon : ∀ p ∈ d, canonicalKey p.1 = true)
    (hsingle : ∀ p ∈ d, split p.2 = Except.ok [p.2])
    (hvalid : ∀ p ∈ d, is_valid env p.1 p.2 = Except.ok true)
    (hnodup : (dKeys d).Nodup) :
    process_input env d = Except.ok (some d) := by
  have hinner : inner env d [] = Except.ok d := by
    have h := inner_all_plain env d [] hsingle hcanon hvalid hnodup
      (fun k _ => rfl)
    simpa using h
  show process_input_fuel env 3 d = _
  unfold process_input_fuel
  rw [hinner]
  have hd : ∀ p ∈ d, canonicalKey p.1 = true := hcanon
  exact loopF_all_canonical env 2 d hd

/-- C8 witness: a two-declaration canonical set (a named color and a pixel
margin) is returned exactly as given. -/
theorem process_input_idempotent_witness :
    process_input stdEnv [("color", "red"), ("margin-top", "2px")] =
      Except.ok (some [("color", "red"), ("margin-top", "2px")]) := by
  exact process_input_idempotent stdEnv
    [("color", "red"), ("margin-top", "2px")]
    (by decide) (by decide) (by decide) (by decide)

/-! C9: termination of the re-expansion loop. -/

theorem M_bind_ok {α β : Type} (a : α) (f : α → M β) :
    (Except.ok a >>= f) = f a := rfl

theorem M_bind_error {α β : Type} (e : Exc) (f : α → M β) :
    ((Except.error e : M α) >>= f) = Except.error e := rfl

theorem bareAssert_false :
    bareAssert false = Except.error (Exc.assertionError none) := rfl

theorem msgAssert_false (m : String) :
    msgAssert false m = Except.error (Exc.assertionError (some m)) := rfl

theorem mem_dKeys_of_mem {α : Type} {d : Dict α} {p : String × α}
    (h : p ∈ d) : p.1 ∈ dKeys d :=
  List.mem_map_of_mem Prod.fst h

/-- The still-expandable non-canonical keys a first expansion pass can
produce: only the smart shorthand `border` emits them. -/
def expandableExtra : List String :=
  ["border-width", "border-style", "border-color"]

/-- A key is good when it is canonical or one of the three transient
border sub-shorthands. -/
def goodKey (k : String) : Bool :=
  canonicalKey k || expandableExtra.contains k

theorem foldlM_dirStep_keys :
    ∀ (l : List String) (acc : Dict String),
    (∀ k ∈ dKeys acc, k ∈ directions) → (∀ k ∈ l, k ∈ directions) →
    ∀ res, l.foldlM dirStep acc = Except.ok res →
    ∀ k ∈ dKeys res, k ∈ directions := by
  intro l
  induction l with
  | nil =>
      intro acc hacc _ res h
      simp only [List.foldlM_nil] at h
      obtain rfl : acc = res := by
        exact Except.ok.injEq _ _ ▸ h
      exact hacc
  | cons a tl ih =>
      intro acc hacc hl res h
      rw [List.foldlM_cons] at h
      cases hst : dirStep acc a with
      | error e =>
          rw [hst, M_bind_error] at h
          exact Except.noConfusion h
      | ok acc' =>
          rw [hst, M_bind_ok] at h
          refine ih acc' ?_ (fun k hk => hl k (List.mem_cons_of_mem _ hk)) res h
          unfold dirStep at hst
          cases hfb : dGet? dir_fallbacks a with
          | none =>
              simp only [hfb] at hst
              exact Except.noConfusion hst
          | some src =>
              simp only [hfb] at hst
              cases hsv : dGet? acc src with
              | none =>
                  simp only [hsv] at hst
                  exact Except.noConfusion hst
              | some v =>
                  simp only [hsv, Except.ok.injEq] at hst
                  subst hst
                  intro k hk
                  rcases (mem_dKeys_dSet acc a k v).mp hk with hmem | h2
                  · exact hacc k hmem
                  · exact h2 ▸ hl a (List.mem_cons_self _ _)

theorem dirFill_keys {arr : List String} {res : Dict String}
    (h : dirFill arr = Except.ok res) : ∀ k ∈ dKeys res, k ∈ directions := by
  unfold dirFill at h
  refine foldlM_dirStep_keys _ _ ?_ ?_ res h
  · intro k hk
    simp only [dKeys] at hk
    rcases List.mem_map.mp hk with ⟨⟨a, b⟩, hab, rfl⟩
    exact (List.of_mem_zip hab).1
  · intro k hk
    exact List.mem_of_mem_drop hk

theorem foldlM_smartInner_keys (env : Env) (v : String) (sh : List String) :
    ∀ (l : List String) (acc : Dict String),
    (∀ k ∈ dKeys acc, k ∈ sh) → (∀ k ∈ l, k ∈ sh) →
    ∀ res, l.foldlM (smartInnerStep env v) acc = Except.ok res →
    ∀ k ∈ dKeys res, k ∈ sh := by
  intro l
  induction l with
  | nil =>
      intro acc hacc _ res h
      simp only [List.foldlM_nil] at h
      obtain rfl : acc = res := by
        exact Except.ok.injEq _ _ ▸ h
      exact hacc
  | cons a tl ih =>
      intro acc hacc hl res h
      rw [List.foldlM_cons] at h
      cases hst : smartInnerStep env v acc a with
      | error e =>
          rw [hst, M_bind_error] at h
          exact Except.noConfusion h
      | ok acc' =>
          rw [hst, M_bind_ok] at h
          refine ih acc' ?_ (fun k hk => hl k (List.mem_cons_of_mem _ hk)) res h
          unfold smartInnerStep at hst
          cases hv : is_valid env a v with
          | error e =>
              rw [hv, M_bind_error] at hst
              exact Except.noConfusion hst
          | ok b =>
              rw [hv, M_bind_ok] at hst
              rw [Except.ok.injEq] at hst
              subst hst
              cases b with
              | false =>
                  simpa using hacc
              | true =>
                  intro k hk
                  simp only [if_pos rfl] at hk
                  rcases (mem_dKeys_dSet acc a k v).mp hk with hmem | h2
                  · exact hacc k hmem
                  · exact h2 ▸ hl a (List.mem_cons_self _ _)

theorem smartFold_keys {env : Env} {sh arr : List String} {res : Dict String}
    (h : smartFold env sh arr = Except.ok res) : ∀ k ∈ dKeys res, k ∈ sh := by
  unfold smartFold at h
  revert h
  generalize hacc0 : ([] : Dict String) = acc0
  have hacc : ∀ k ∈ dKeys acc0, k ∈ sh := by
    rw [← hacc0]
    intro k hk
    simp [dKeys] at hk
  clear hacc0
  revert acc0
  induction arr with
  | nil =>
      intro acc0 hacc h
      simp only [List.foldlM_nil] at h
      obtain rfl : acc0 = res := by
        exact Except.ok.injEq _ _ ▸ h
      exact hacc
  | cons a tl ih =>
      intro acc0 hacc h
      rw [List.foldlM_cons] at h
      cases hst : sh.foldlM (smartInnerStep env a) acc0 with
      | error e =>
          rw [hst, M_bind_error] at h
          exact Except.noConfusion h
      | ok acc' =>
          rw [hst, M_bind_ok] at h
          exact ih acc'
            (foldlM_smartInner_keys env a sh sh acc0 hacc (fun k hk => hk)
              acc' hst) h

theorem M_bind_eq_ok {α β : Type} {x : M α} {f : α → M β} {b : β}
    (h : (x >>= f) = Except.ok b) :
    ∃ a, x = Except.ok a ∧ f a = Except.ok b := by
  cases x with
  | error e =>
      rw [M_bind_error] at h
      exact Except.noConfusion h
  | ok a =>
      rw [M_bind_ok] at h
      exact ⟨a, rfl, h⟩

theorem msgAssert_eq_ok {c : Bool} {m : String} {u : Unit}
    (h : msgAssert c m = Except.ok u) : c = true := by
  cases c with
  | false => exact Except.noConfusion h
  | true => rfl

/-- The directional branch only emits keys formatted from directions. -/
theorem dir_branch_keys {env : Env} {key f v : String} {arr : List String}
    {m : Dict String} (hkey : key ≠ "all")
    (hdir : dGet? dir_shorthands key = some f)
    (h : process_property_arr env key v arr = Except.ok m) :
    ∀ k ∈ dKeys m, ∃ d ∈ directions, k = pyFormat f d := by
  unfold process_property_arr at h
  rw [if_neg hkey] at h
  simp only [hdir] at h
  obtain ⟨u1, h1, h⟩ := M_bind_eq_ok h
  obtain ⟨res, hdf, h⟩ := M_bind_eq_ok h
  rw [Except.ok.injEq] at h
  subst h
  intro k hk
  rcases mem_dKeys_dUpdateList hk with hk0 | hk1
  · simp [dKeys] at hk0
  · simp only [dKeys, List.map_map] at hk1
    rcases List.mem_map.mp hk1 with ⟨kv, hkv, rfl⟩
    exact ⟨kv.1, dirFill_keys hdf kv.1 (mem_dKeys_of_mem hkv), rfl⟩

/-- Every key an expansion pass emits is canonical or one of the three
transient border sub-shorthands. -/
theorem process_property_arr_good {env : Env} {key v : String}
    {arr : List String} {m : Dict String}
    (h : process_property_arr env key v arr = Except.ok m) :
    ∀ k ∈ dKeys m, goodKey k = true := by
  by_cases hall : key = "all"
  · subst hall
    unfold process_property_arr at h
    rw [if_pos rfl] at h
    obtain ⟨u1, h1, h⟩ := M_bind_eq_ok h
    obtain ⟨u2, h2, h⟩ := M_bind_eq_ok h
    rw [Except.ok.injEq] at h
    subst h
    intro k hk
    rcases mem_dKeys_dUpdateList hk with hk0 | hk1
    · simp [dKeys] at hk0
    · have hmem : k ∈ dKeys style_attrs := by
        simpa [dKeys, List.map_map, Function.comp] using hk1
      have hdm : dMem style_attrs k = true := by
        have := (mem_dKeys_iff style_attrs k).mp hmem
        simpa [dMem] using this
      unfold goodKey canonicalKey
      rw [hdm]
      rfl
  · cases hdir : dGet? dir_shorthands key with
    | some f =>
        intro k hk
        rcases dir_branch_keys hall hdir h k hk with ⟨d, hd, rfl⟩
        have hmemd := dGet?_mem hdir
        have hall2 : dir_shorthands.all
            (fun kv2 => directions.all
              (fun dd => goodKey (pyFormat kv2.2 dd))) = true := by decide
        exact List.all_eq_true.mp (List.all_eq_true.mp hall2 _ hmemd) _ hd
    | none =>
        unfold process_property_arr at h
        rw [if_neg hall] at h
        simp only [hdir] at h
        cases hsm : smartGet? smart_shorthands key with
        | some sh =>
            simp only [hsm] at h
            obtain ⟨u1, h1, h⟩ := M_bind_eq_ok h
            obtain ⟨result, hsf, h⟩ := M_bind_eq_ok h
            obtain ⟨u2, h2, h⟩ := M_bind_eq_ok h
            rw [Except.ok.injEq] at h
            subst h
            intro k hk
            have hks := smartFold_keys hsf k hk
            have hmems := smartGet?_mem hsm
            have hall2 : smart_shorthands.all
                (fun kv => kv.2.all goodKey) = true := by decide
            exact List.all_eq_true.mp (List.all_eq_true.mp hall2 _ hmems) _ hks
        | none =>
            simp only [hsm] at h
            obtain ⟨u1, h1, h⟩ := M_bind_eq_ok h
            obtain ⟨u2, h2, h⟩ := M_bind_eq_ok h
            obtain ⟨b, h3, h⟩ := M_bind_eq_ok h
            obtain ⟨u4, h4, h⟩ := M_bind_eq_ok h
            rw [Except.ok.injEq] at h
            subst h
            intro k hk
            have hkey2 : k = key := by
              simpa [dKeys] using hk
            subst hkey2
            have hc : dMem style_attrs k = true := msgAssert_eq_ok h2
            unfold goodKey canonicalKey
            rw [hc]
            rfl

/-- Expanding one of the transient border sub-shorthands emits only
canonical keys. -/
theorem process_property_extra_canonical {env : Env} {key v : String}
    {m : Dict String} (hk : key ∈ expandableExtra)
    (h : process_property env key v = Except.ok m) :
    ∀ k ∈ dKeys m, canonicalKey k = true := by
  cases hs : split v with
  | error e =>
      rw [process_property_split_error hs] at h
      exact Except.noConfusion h
  | ok arr =>
      rw [process_property_eq_arr hs] at h
      have hform : ∀ f, dGet? dir_shorthands key = some f →
          ∀ k ∈ dKeys m, canonicalKey k = true := by
        intro f hdir k hkm
        have hkey : key ≠ "all" := by
          intro heq
          rw [heq] at hdir
          simp [dir_shorthands, dGet?] at hdir
        rcases dir_branch_keys hkey hdir h k hkm with ⟨d, hd, rfl⟩
        have hmemd := dGet?_mem hdir
        have hgood : dir_shorthands.all
            (fun kv2 => directions.all
              (fun dd => canonicalKey (pyFormat kv2.2 dd) ||
                !(expandableExtra.contains kv2.1))) = true := by decide
        have hkv := List.all_eq_true.mp (List.all_eq_true.mp hgood _ hmemd) _ hd
        have hcont : expandableExtra.contains key = true :=
          List.elem_eq_true_of_mem hk
        simp only [hcont] at hkv
        simpa using hkv
      cases hdir : dGet? dir_shorthands key with
      | some f => exact hform f hdir
      | none =>
          exfalso
          revert hdir
          fin_cases hk <;> decide

/-- process_property only emits good keys. -/
theorem process_property_good {env : Env} {key value : String}
    {m : Dict String} (h : process_property env key value = Except.ok m) :
    ∀ k ∈ dKeys m, goodKey k = true := by
  cases hs : split value with
  | error e =>
      rw [process_property_split_error hs] at h
      exact Except.noConfusion h
  | ok arr =>
      rw [process_property_eq_arr hs] at h
      exact process_property_arr_good h

theorem goodKey_not_canonical {k : String} (hg : goodKey k = true)
    (hc : canonicalKey k = false) : k ∈ expandableExtra := by
  unfold goodKey at hg
  rw [hc] at hg
  simp only [Bool.false_or] at hg
  exact List.mem_of_elem_eq_true hg

/-- inner preserves a key predicate held by the accumulator and by every
expansion of the processed items. -/
theorem inner_keys (env : Env) (P : String → Bool) :
    ∀ (items : List (String × String)) (done : Dict String),
    (∀ k ∈ dKeys done, P k = true) →
    (∀ p ∈ items, ∀ m, process_property env p.1 p.2 = Except.ok m →
      ∀ k ∈ dKeys m, P k = true) →
    ∀ out, inner env items done = Except.ok out →
    ∀ k ∈ dKeys out, P k = true := by
  intro items
  induction items with
  | nil =>
      intro done hdone _ out h
      simp only [inner, Except.ok.injEq] at h
      subst h
      exact hdone
  | cons hd tl ih =>
      obtain ⟨key, value⟩ := hd
      intro done hdone hitems out h
      simp only [inner] at h
      cases hpp : process_property env key value with
      | ok m =>
          simp only [hpp] at h
          refine ih (dUpdateList done m) ?_
            (fun p hp => hitems p (List.mem_cons_of_mem _ hp)) out h
          intro k hk
          rcases mem_dKeys_dUpdateList hk with hk1 | hk2
          · exact hdone k hk1
          · exact hitems (key, value) (List.mem_cons_self _ _) m hpp k hk2
      | error e =>
          simp only [hpp] at h
          cases e with
          | assertionError msg =>
              cases msg with
              | some s =>
                  exact ih done hdone
                    (fun p hp => hitems p (List.mem_cons_of_mem _ hp)) out h
              | none => exact Except.noConfusion h
          | valueError => exact Except.noConfusion h
          | typeError => exact Except.noConfusion h
          | keyError => exact Except.noConfusion h
          | attributeError => exact Except.noConfusion h
          | indexError => exact Except.noConfusion h

/-- After one pass over an all-good dict, every further pass agrees and
the loop returns a result. -/
theorem loopF_stable (env : Env) (done : Dict String)
    (hgood : ∀ k ∈ dKeys done, goodKey k = true) (n : ℕ) :
    loopF env (2 + n) done = loopF env 2 done ∧
    (∀ r, loopF env 2 done = Except.ok r → r.isSome) := by
  have h2n : (2 + n : ℕ) = (1 + n) + 1 := by omega
  have h2 : (2 : ℕ) = 1 + 1 := rfl
  cases hie : (done.filter (fun kv => !canonicalKey kv.1)).isEmpty with
  | true =>
      constructor
      · rw [h2n, h2]
        simp only [loopF, hie, if_pos]
      · intro r hr
        rw [h2] at hr
        simp only [loopF, hie, if_pos, Except.ok.injEq] at hr
        subst hr
        rfl
  | false =>
      have hone : ∀ (fuel : ℕ), loopF env (fuel + 1) done =
          match inner env (done.filter (fun kv => !canonicalKey kv.1))
              (done.filter (fun kv => canonicalKey kv.1)) with
          | Except.error e => Except.error e
          | Except.ok done1 => loopF env fuel done1 := by
        intro fuel
        simp only [loopF, hie, if_false, Bool.false_eq_true]
      cases hi : inner env (done.filter (fun kv => !canonicalKey kv.1))
          (done.filter (fun kv => canonicalKey kv.1)) with
      | error e =>
          constructor
          · rw [h2n, h2, hone, hone]
            simp only [hi]
          · intro r hr
            rw [h2, hone] at hr
            simp only [hi] at hr
            exact Except.noConfusion hr
      | ok done1 =>
          have hcan1 : ∀ k ∈ dKeys done1, canonicalKey k = true := by
            refine inner_keys env canonicalKey _ _ ?_ ?_ done1 hi
            · intro k hk
              simp only [dKeys] at hk
              rcases List.mem_map.mp hk with ⟨p, hp, rfl⟩
              exact (List.mem_filter.mp hp).2
            · intro p hp m hm
              have hp2 := List.mem_filter.mp hp
              have hpe : p.1 ∈ expandableExtra := by
                refine goodKey_not_canonical
                  (hgood p.1 (mem_dKeys_of_mem hp2.1)) ?_
                have h3 := hp2.2
                simp only [Bool.not_eq_true'] at h3
                exact h3
              exact process_property_extra_canonical hpe hm
          have hpair : ∀ p ∈ done1, canonicalKey p.1 = true :=
            fun p hp => hcan1 p.1 (mem_dKeys_of_mem hp)
          constructor
          · rw [h2n, h2, hone, hone]
            simp only [hi]
            rw [show (1 + n : ℕ) = n + 1 from Nat.add_comm 1 n,
              loopF_all_canonical env n done1 hpair,
              show (1 : ℕ) = 0 + 1 from rfl,
              loopF_all_canonical env 0 done1 hpair]
          · intro r hr
            rw [h2, hone] at hr
            simp only [hi] at hr
            rw [show (1 : ℕ) = 0 + 1 from rfl,
              loopF_all_canonical env 0 done1 hpair, Except.ok.injEq] at hr
            subst hr
            rfl

/-- C9: the re-expansion loop of process_input always reaches its fixed
point within the given fuel — more fuel never changes the result, and a
successful run never reports fuel exhaustion. -/
theorem process_input_terminates (env : Env) (d : List (String × String))
    (n : ℕ) :
    process_input_fuel env (3 + n) d = process_input env d ∧
    (∀ r, process_input env d = Except.ok r → r.isSome) := by
  have hmain : process_input_fuel env (3 + n) d =
      process_input_fuel env 3 d ∧
      (∀ r, process_input_fuel env 3 d = Except.ok r → r.isSome) := by
    unfold process_input_fuel
    cases hi : inner env d [] with
    | error e =>
        refine ⟨rfl, fun r hr => ?_⟩
        exact Except.noConfusion hr
    | ok done =>
        have hgood : ∀ k ∈ dKeys done, goodKey k = true := by
          refine inner_keys env goodKey d [] ?_ ?_ done hi
          · intro k hk
            simp [dKeys] at hk
          · intro p _ m hm
            exact process_property_good hm
        have hstable := loopF_stable env done hgood
        constructor
        · show loopF env (3 + n) done = loopF env 3 done
          rw [show (3 + n : ℕ) = 2 + (1 + n) from by omega,
            (hstable (1 + n)).1, show (3 : ℕ) = 2 + 1 from rfl,
            (hstable 1).1]
        · intro r hr
          have hr2 : loopF env 3 done = Except.ok r := hr
          rw [show (3 : ℕ) = 2 + 1 from rfl, (hstable 1).1] at hr2
          exact (hstable 1).2 r hr2
  exact hmain

/-- C9 witness: at loop fuel 3 the result for a border shorthand
declaration is already the fixed point; extra fuel does not change it and
the run returns an actual result. -/
theorem process_input_terminates_witness :
    process_input_fuel stdEnv 4 [("border", "1px")] =
      process_input stdEnv [("border", "1px")] ∧
    (process_input stdEnv [("border", "1px")]).map Option.isSome =
      Except.ok true :=
  ⟨(process_input_terminates stdEnv [("border", "1px")] 1).1, by decide⟩

end Positron
